import Mathlib

/-!
Verification of the extendible hash table in
src/container/hash/extendible_hash_table.cpp (BusTub).

Shallow embedding conventions:
* A C++ `std::shared_ptr<Bucket>` is modelled as an index (`Nat`) into an
  arena `store : List (Bucket K V)`; `std::make_shared` appends a bucket to
  the arena.  Several directory slots holding the same index model several
  slots sharing one bucket, exactly as shared pointers do.
* A directory slot `dir_[i]` holds `Option Nat`: `none` models a
  default-constructed (null) shared pointer, as produced by `dir_.resize`.
* Machine integers (`size_t`, non-negative `int` counters) are modelled as
  `Nat`; the code never relies on wrap-around for the depths and sizes in
  range here.
* Any undefined behaviour of the C++ code (dereferencing a null pointer,
  out-of-range `std::vector::operator[]`) makes the modelled operation
  return `none`.
* `std::hash<K>` is modelled as an explicit parameter `hash : K → Nat`.
* The recursive `Insert` does not terminate for some inputs, so it is
  modelled with explicit fuel; `none` also covers fuel exhaustion.
-/

namespace ExtHash

variable {K V : Type}

/-- Bucket state: `list_`, `size_` (capacity) and `depth_` of the C++
`ExtendibleHashTable<K, V>::Bucket`. -/
structure Bucket (K V : Type) where
  list : List (K × V)
  size : Nat
  depth : Nat
deriving Repr, DecidableEq

/-- Loop of `Bucket::Find`: scan `list_` for the first entry whose key
compares equal, returning its value. -/
def findLoop [DecidableEq K] : List (K × V) → K → Option V
  | [], _ => none
  | (k, v) :: rest, key => if k = key then some v else findLoop rest key

/-- Result of the scan inside `Bucket::Find`. -/
def Bucket.findEntry [DecidableEq K] (b : Bucket K V) (key : K) : Option V :=
  findLoop b.list key

/-- The C++ `Bucket::Find(key, value)`: `value` is an out-parameter, assigned
only when the scan hits; the pair returned is (return value, out-parameter
after the call). -/
def Bucket.find [DecidableEq K] (b : Bucket K V) (key : K) (value : V) : Bool × V :=
  match b.findEntry key with
  | some v => (true, v)
  | none => (false, value)

/-- Loop of `Bucket::Remove`: erase the first entry with the given key. -/
def removeLoop [DecidableEq K] : List (K × V) → K → Bool × List (K × V)
  | [], _ => (false, [])
  | (k, v) :: rest, key =>
    if k = key then (true, rest)
    else
      let r := removeLoop rest key
      (r.1, (k, v) :: r.2)

/-- The C++ `Bucket::Remove(key)`: (return value, bucket after the call). -/
def Bucket.remove [DecidableEq K] (b : Bucket K V) (key : K) : Bool × Bucket K V :=
  let r := removeLoop b.list key
  (r.1, ⟨r.2, b.size, b.depth⟩)

/-- Modelled from the spec: `Bucket::IsFull()` is declared in the class
header, which is not among the given sources; the spec fixes it as
`len(entries) == capacity`. -/
def Bucket.isFull (b : Bucket K V) : Bool := b.list.length == b.size

/-- Modelled from the spec: `Bucket::GetDepth()` (header accessor reading
the current local depth). -/
def Bucket.getDepth (b : Bucket K V) : Nat := b.depth

/-- Modelled from the spec: `Bucket::IncrementDepth()` (header mutator,
increments the local depth by exactly 1). -/
def Bucket.incrementDepth (b : Bucket K V) : Bucket K V :=
  ⟨b.list, b.size, b.depth + 1⟩

/-- Modelled from the spec: `Bucket::GetItems()` (header accessor exposing
the entry list). -/
def Bucket.getItems (b : Bucket K V) : List (K × V) := b.list

/-- Update loop of `Bucket::Insert`: if some entry has the key, overwrite its
value in place (`some` result); otherwise `none`. -/
def updateLoop [DecidableEq K] : List (K × V) → K → V → Option (List (K × V))
  | [], _, _ => none
  | (k, v) :: rest, key, value =>
    if k = key then some ((k, value) :: rest)
    else (updateLoop rest key value).map (fun l => (k, v) :: l)

/-- The C++ `Bucket::Insert(key, value)`: reject when full (checked first,
before the duplicate-key scan), else overwrite in place or append. -/
def Bucket.insert [DecidableEq K] (b : Bucket K V) (key : K) (value : V) :
    Bool × Bucket K V :=
  if b.isFull then (false, b)
  else
    match updateLoop b.list key value with
    | some l => (true, ⟨l, b.size, b.depth⟩)
    | none => (true, ⟨b.list ++ [(key, value)], b.size, b.depth⟩)

/-- Whole-table state: `global_depth_`, `bucket_size_`, `num_buckets_`, the
directory `dir_` (slots hold arena indices, `none` = null shared pointer)
and the arena `store` of all buckets ever created. -/
structure HTState (K V : Type) where
  globalDepth : Nat
  bucketSize : Nat
  numBuckets : Nat
  dir : List (Option Nat)
  store : List (Bucket K V)
deriving Repr, DecidableEq

/-- The constructor `ExtendibleHashTable(bucket_size)`: global depth 0,
`num_buckets_ = 1`, and the loop pushes one bucket of the given capacity
(depth 0, the header's default, matching the spec's lifecycle for the sole
initial bucket). -/
def newTable (cap : Nat) : HTState K V :=
  ⟨0, cap, 1, [some 0], [⟨[], cap, 0⟩]⟩

/-- The C++ `IndexOf(key)`: `std::hash<K>()(key) & ((1 << global_depth_) - 1)`. -/
def indexOf (hash : K → Nat) (s : HTState K V) (key : K) : Nat :=
  hash key &&& (2 ^ s.globalDepth - 1)

/-- Dereference directory slot `i`: fails on an out-of-range index or a null
shared pointer (both undefined behaviour in the C++ code). -/
def getSlot (s : HTState K V) (i : Nat) : Option Nat :=
  match s.dir[i]? with
  | some (some id) => some id
  | _ => none

/-- Look a bucket up in the arena. -/
def getBucket (s : HTState K V) (id : Nat) : Option (Bucket K V) :=
  s.store[id]?

/-- The bucket referenced by directory slot `i`, if any. -/
def bucketAt (s : HTState K V) (i : Nat) : Option (Bucket K V) :=
  match getSlot s i with
  | some id => getBucket s id
  | none => none

/-- Assign directory slot `i` to point at bucket `id`
(`dir_[i] = <bucket>`); fails when `i` is out of range. -/
def setSlot (s : HTState K V) (i : Nat) (id : Nat) : Option (HTState K V) :=
  if i < s.dir.length then some { s with dir := s.dir.set i (some id) } else none

/-- Copy a raw slot value (possibly a null pointer) into slot `i`
(`dir_[i] = dir_[j]`); fails when `i` is out of range. -/
def setSlotRaw (s : HTState K V) (i : Nat) (v : Option Nat) : Option (HTState K V) :=
  if i < s.dir.length then some { s with dir := s.dir.set i v } else none

/-- Overwrite bucket `id` in the arena: models mutating `*ptr` through any
shared pointer that holds `id`. -/
def setStore (s : HTState K V) (id : Nat) (b : Bucket K V) : Option (HTState K V) :=
  if id < s.store.length then some { s with store := s.store.set id b } else none

/-- `GetGlobalDepth()` (the lock only serializes, no behaviour change in a
sequential model). -/
def getGlobalDepth (s : HTState K V) : Nat := s.globalDepth

/-- `GetLocalDepth(dir_index)`: `dir_[dir_index]->GetDepth()`.  The C++ code
performs an unchecked `std::vector::operator[]` access, so an out-of-range
index has no defined result (modelled as `none`). -/
def getLocalDepth (s : HTState K V) (dirIndex : Nat) : Option Nat :=
  (bucketAt s dirIndex).map Bucket.getDepth

/-- `GetNumBuckets()`: returns the `num_buckets_` counter field. -/
def getNumBuckets (s : HTState K V) : Nat := s.numBuckets

/-- Number of distinct bucket instances currently referenced by directory
slots (the quantity the spec says `bucket_count` reports). -/
def distinctBuckets (s : HTState K V) : Nat :=
  (s.dir.filterMap id).dedup.length

/-- `Find(key, value)` at a precomputed directory index. -/
def tableFindAt [DecidableEq K] (s : HTState K V) (i : Nat) (key : K) (value : V) :
    Option (Bool × V) :=
  (bucketAt s i).map (fun b => b.find key value)

/-- The C++ `ExtendibleHashTable::Find(key, value)`. -/
def tableFind (hash : K → Nat) [DecidableEq K] (s : HTState K V) (key : K)
    (value : V) : Option (Bool × V) :=
  tableFindAt s (indexOf hash s key) key value

/-- `Remove(key)` at a precomputed directory index. -/
def tableRemoveAt [DecidableEq K] (s : HTState K V) (i : Nat) (key : K) :
    Option (Bool × HTState K V) :=
  match getSlot s i with
  | none => none
  | some id =>
    match getBucket s id with
    | none => none
    | some b =>
      let r := b.remove key
      match setStore s id r.2 with
      | some s2 => some (r.1, s2)
      | none => none

/-- The C++ `ExtendibleHashTable::Remove(key)`. -/
def tableRemove (hash : K → Nat) [DecidableEq K] (s : HTState K V) (key : K) :
    Option (Bool × HTState K V) :=
  tableRemoveAt s (indexOf hash s key) key

/-- Inner distribution loop of `RedistributeBucket`: for each collected pair,
`dst_bucket->Insert(k, v); src_bucket->Remove(k);` (the boolean results are
discarded). -/
def distributeLoop [DecidableEq K] (s : HTState K V) (dstId srcId : Nat) :
    List (K × V) → Option (HTState K V)
  | [] => some s
  | (k, v) :: rest =>
    match getBucket s dstId with
    | none => none
    | some db =>
      match setStore s dstId (db.insert k v).2 with
      | none => none
      | some s1 =>
        match getBucket s1 srcId with
        | none => none
        | some sb =>
          match setStore s1 srcId (sb.remove k).2 with
          | none => none
          | some s2 => distributeLoop s2 dstId srcId rest

/-- The C++ `RedistributeBucket(dir_[index], split_bucket, index)`.
`src_bucket` is a reference to the directory slot `dir_[index]`, so after the
assignment `dir_[index | mask] = dst_bucket` the source is re-read through
that slot: when `index | mask == index` the source now denotes the sibling. -/
def redistributeBucket (hash : K → Nat) [DecidableEq K] (s : HTState K V)
    (index : Nat) (dstId : Nat) : Option (HTState K V) :=
  match getSlot s index with
  | none => none
  | some srcId0 =>
    match getBucket s srcId0 with
    | none => none
    | some srcB0 =>
      let mask := 2 ^ (srcB0.depth - 1)
      match setSlot s (index ||| mask) dstId with
      | none => none
      | some s1 =>
        match getSlot s1 index with
        | none => none
        | some srcId =>
          match getBucket s1 srcId with
          | none => none
          | some srcB =>
            let pairs :=
              srcB.list.filter (fun kv => decide (hash kv.1 &&& mask ≠ 0))
            distributeLoop s1 dstId srcId pairs

mutual

/-- The C++ `ExtendibleHashTable::Insert(key, value)`, with fuel for its
(possibly non-terminating) recursion.  The body is the code of `Insert`
with `bucket_index = IndexOf(key)` inlined. -/
def insertF (hash : K → Nat) [DecidableEq K] (fuel : Nat) (s : HTState K V)
    (key : K) (value : V) : Option (HTState K V) :=
  match fuel with
  | 0 => none
  | fuel + 1 =>
  let bucketIndex := indexOf hash s key
  match getSlot s bucketIndex with
  | none => none
  | some id =>
    match getBucket s id with
    | none => none
    | some b =>
      if (b.findEntry key).isSome then
        -- key already present: return without touching the table
        some s
      else if b.isFull = false then
        -- room available: plain bucket insert
        setStore s id (b.insert key value).2
      else if b.depth = s.globalDepth then
        -- grow the directory, then split inside the copy loop
        let s1 : HTState K V :=
          { s with globalDepth := s.globalDepth + 1,
                   store := s.store.set id b.incrementDepth }
        let newLen := 2 ^ s1.globalDepth
        let s2 : HTState K V :=
          { s1 with dir :=
              (s1.dir ++ List.replicate (newLen - s1.dir.length) none).take newLen }
        insertGrowLoop hash fuel key value bucketIndex
          (2 ^ (s2.globalDepth - 1) - 1) (2 ^ (s2.globalDepth - 1)) s2
      else
        -- local depth below global depth: split without growing
        let s1 : HTState K V := { s with store := s.store.set id b.incrementDepth }
        let splitId := s1.store.length
        let s2 : HTState K V :=
          { s1 with store := s1.store ++ [⟨[], s1.bucketSize, b.depth + 1⟩] }
        match redistributeBucket hash s2 bucketIndex splitId with
        | none => none
        | some s3 => insertF hash fuel s3 key value
termination_by structural fuel

/-- The directory-copy loop of the growth branch:
`for (i = 1 << (gd - 1); i < dir_.size(); ++i)` with the loop bound re-read
every iteration and the recursive `Insert` performed inside the loop. -/
def insertGrowLoop (hash : K → Nat) [DecidableEq K] (fuel : Nat) (key : K)
    (value : V) (bucketIndex mask i : Nat) (s : HTState K V) :
    Option (HTState K V) :=
  match fuel with
  | 0 => none
  | fuel + 1 =>
    if i < s.dir.length then
      if i &&& mask = bucketIndex then
        match getSlot s bucketIndex with
        | none => none
        | some curId =>
          match getBucket s curId with
          | none => none
          | some curB =>
            let splitId := s.store.length
            let s1 : HTState K V :=
              { s with store := s.store ++ [⟨[], s.bucketSize, curB.depth⟩] }
            match redistributeBucket hash s1 bucketIndex splitId with
            | none => none
            | some s2 =>
              match insertF hash fuel s2 key value with
              | none => none
              | some s3 =>
                insertGrowLoop hash fuel key value bucketIndex mask (i + 1) s3
      else
        match s.dir[i &&& mask]? with
        | none => none
        | some v =>
          match setSlotRaw s i v with
          | none => none
          | some s1 => insertGrowLoop hash fuel key value bucketIndex mask (i + 1) s1
    else
      some s
termination_by structural fuel

end

/-- Body of `Insert` as a function of the precomputed directory index
`bucket_index`; `insertF` with positive fuel is exactly this body applied at
`IndexOf(key)`. -/
def insertStep (hash : K → Nat) [DecidableEq K] (fuel : Nat) (s : HTState K V)
    (key : K) (value : V) (bucketIndex : Nat) : Option (HTState K V) :=
  match getSlot s bucketIndex with
  | none => none
  | some id =>
    match getBucket s id with
    | none => none
    | some b =>
      if (b.findEntry key).isSome then
        some s
      else if b.isFull = false then
        setStore s id (b.insert key value).2
      else if b.depth = s.globalDepth then
        let s1 : HTState K V :=
          { s with globalDepth := s.globalDepth + 1,
                   store := s.store.set id b.incrementDepth }
        let newLen := 2 ^ s1.globalDepth
        let s2 : HTState K V :=
          { s1 with dir :=
              (s1.dir ++ List.replicate (newLen - s1.dir.length) none).take newLen }
        insertGrowLoop hash fuel key value bucketIndex
          (2 ^ (s2.globalDepth - 1) - 1) (2 ^ (s2.globalDepth - 1)) s2
      else
        let s1 : HTState K V := { s with store := s.store.set id b.incrementDepth }
        let splitId := s1.store.length
        let s2 : HTState K V :=
          { s1 with store := s1.store ++ [⟨[], s1.bucketSize, b.depth + 1⟩] }
        match redistributeBucket hash s2 bucketIndex splitId with
        | none => none
        | some s3 => insertF hash fuel s3 key value

/-- Capacity predicate for one bucket: `len(entries) <= capacity`. -/
def capOk (b : Bucket K V) : Prop := b.list.length ≤ b.size

/-- Capacity invariant over every bucket ever created (referenced or not). -/
def capInv (s : HTState K V) : Prop := ∀ b ∈ s.store, capOk b

/-- Executable form of the capacity invariant. -/
def capInvB (s : HTState K V) : Bool :=
  s.store.all (fun b => decide (b.list.length ≤ b.size))

/-- Executable aliasing invariant of the spec: the directory length is
`2 ^ global_depth`, and whenever slot `i` references a bucket of depth `d`,
every slot `j` agreeing with `i` on the low `d` bits references that same
bucket. -/
def aliasInvB (s : HTState K V) : Bool :=
  (s.dir.length == 2 ^ s.globalDepth) &&
    (List.range s.dir.length).all (fun i =>
      match getSlot s i with
      | none => true
      | some id =>
        match getBucket s id with
        | none => true
        | some b =>
          (List.range s.dir.length).all (fun j =>
            if (j &&& (2 ^ b.depth - 1)) == (i &&& (2 ^ b.depth - 1)) then
              getSlot s j == some id
            else true))

/-- Executable invariant: every referenced bucket has local depth at most the
global depth. -/
def localLeGlobalB (s : HTState K V) : Bool :=
  (List.range s.dir.length).all (fun i =>
    match bucketAt s i with
    | none => true
    | some b => decide (b.depth ≤ s.globalDepth))

/-- The structural invariants of the spec, combined. -/
def structInvB (s : HTState K V) : Bool :=
  aliasInvB s && capInvB s && localLeGlobalB s

/-- All entries stored in buckets currently referenced by some directory
slot (the resident entries of the table). -/
def residentEntries (s : HTState K V) : List (K × V) :=
  (s.dir.filterMap id).dedup.foldr
    (fun id acc =>
      match getBucket s id with
      | some b => b.list ++ acc
      | none => acc) []

/-- Number of resident keys whose hash agrees with `h` on every bit. -/
def fullColliders (hash : K → Nat) (s : HTState K V) (h : Nat) : Nat :=
  ((residentEntries s).filter (fun kv => hash kv.1 == h)).length

/-- One externally observable mutating operation of the table. -/
inductive Step (hash : K → Nat) [DecidableEq K] :
    HTState K V → HTState K V → Prop where
  | insert (fuel : Nat) (key : K) (value : V) {s s' : HTState K V} :
      insertF hash fuel s key value = some s' → Step hash s s'
  | remove (key : K) (r : Bool) {s s' : HTState K V} :
      tableRemove hash s key = some (r, s') → Step hash s s'

/-- Table states reachable from construction by completed operations
(`Find` is pure and does not change state). -/
inductive Reachable (hash : K → Nat) [DecidableEq K] : HTState K V → Prop where
  | init (cap : Nat) : Reachable hash (newTable cap)
  | step {s s' : HTState K V} : Reachable hash s → Step hash s s' → Reachable hash s'

/-- Identity hash on natural-number keys (what `std::hash<int>` computes for
the non-negative test keys used throughout). -/
def idHash : Nat → Nat := fun n => n

/-- Run a sequence of inserts, each key mapped to itself as value, starting
from a fresh table with the given bucket capacity. -/
def runInserts (cap : Nat) (keys : List Nat) : Option (HTState Nat Nat) :=
  keys.foldl (fun acc k => acc.bind (fun s => insertF idHash 100 s k k))
    (some (newTable cap))

/-- Replace the value of the first entry holding the given key. -/
def replaceFirst [DecidableEq K] : List (K × V) → K → V → List (K × V)
  | [], _, _ => []
  | (k, v) :: rest, key, value =>
    if k = key then (k, value) :: rest else (k, v) :: replaceFirst rest key value

/-- Amended bucket-insert contract: reject exactly when the bucket is full
(the fullness check comes first, so even an update of a present key is
rejected then); otherwise overwrite in place when the key is present, else
append. -/
def bucketInsertAmended [DecidableEq K] (b : Bucket K V) (key : K) (value : V) :
    Bool × Bucket K V :=
  if b.list.length = b.size then (false, b)
  else if (b.findEntry key).isSome then
    (true, ⟨replaceFirst b.list key value, b.size, b.depth⟩)
  else (true, ⟨b.list ++ [(key, value)], b.size, b.depth⟩)

theorem foldl_insert_none (keys : List Nat) :
    keys.foldl (fun acc k => acc.bind (fun s => insertF idHash 100 s k k)) none = none := by
  induction keys with
  | nil => rfl
  | cons k ks ih => simpa using ih

theorem reachable_foldl (keys : List Nat) :
    ∀ s s' : HTState Nat Nat, Reachable idHash s →
      keys.foldl (fun acc k => acc.bind (fun t => insertF idHash 100 t k k))
        (some s) = some s' →
      Reachable idHash s' := by
  induction keys with
  | nil =>
    intro s s' hs h
    simp only [List.foldl_nil, Option.some.injEq] at h
    exact h ▸ hs
  | cons k ks ih =>
    intro s s' hs h
    rw [List.foldl_cons] at h
    cases hins : insertF idHash 100 s k k with
    | none =>
      have h2 : ks.foldl (fun acc k => acc.bind (fun t => insertF idHash 100 t k k))
          none = some s' := by rw [← hins]; exact h
      rw [foldl_insert_none] at h2
      exact Option.noConfusion h2
    | some s1 =>
      have h2 : ks.foldl (fun acc k => acc.bind (fun t => insertF idHash 100 t k k))
          (some s1) = some s' := by rw [← hins]; exact h
      exact ih s1 s' (hs.step (Step.insert 100 k k hins)) h2

/-- A state produced by `runInserts` is reachable by table operations. -/
theorem reachable_of_runInserts {cap : Nat} {keys : List Nat}
    {s : HTState Nat Nat} (h : runInserts cap keys = some s) :
    Reachable idHash s :=
  reachable_foldl keys (newTable cap) s (Reachable.init cap) h

theorem updateLoop_spec [DecidableEq K] (key : K) (value : V) :
    ∀ l : List (K × V), updateLoop l key value =
      match findLoop l key with
      | some _ => some (replaceFirst l key value)
      | none => none := by
  intro l
  induction l with
  | nil => rfl
  | cons kv rest ih =>
    obtain ⟨k, v⟩ := kv
    by_cases h : k = key
    · simp [updateLoop, findLoop, replaceFirst, h]
    · simp only [updateLoop, findLoop, replaceFirst, if_neg h, ih]
      cases findLoop rest key <;> simp

theorem findLoop_eq_none [DecidableEq K] (key : K) :
    ∀ l : List (K × V), (∀ kv ∈ l, kv.1 ≠ key) → findLoop l key = none := by
  intro l
  induction l with
  | nil => intro; rfl
  | cons kv rest ih =>
    intro h
    obtain ⟨k, v⟩ := kv
    have hk : k ≠ key := h (k, v) (List.mem_cons_self _ _)
    simp only [findLoop, if_neg hk]
    exact ih fun kv hkv => h kv (List.mem_cons_of_mem _ hkv)

/-- C1: the table-level insert of an already-present key returns early and
never updates the stored value.  After insert(0, 10); insert(0, 20), a find
of key 0 still yields 10, not the most recently inserted 20, refuting the
round-trip/update-in-place claim at this input. -/
theorem insert_existing_key_is_noop_cex :
    ((insertF idHash 50 (newTable 2 : HTState Nat Nat) 0 10).bind fun s =>
      (insertF idHash 50 s 0 20).bind fun s2 =>
        tableFind idHash s2 0 99) = some (true, 10) := by decide

/-- C2 counterexample: a full bucket already holding the key rejects the
insert without overwriting (the claim demands success and an in-place
update regardless of fullness). -/
theorem bucket_insert_full_update_rejected_cex :
    ((⟨[(1, 5)], 1, 0⟩ : Bucket Nat Nat).isFull = true) ∧
    ((⟨[(1, 5)], 1, 0⟩ : Bucket Nat Nat).findEntry 1 = some 5) ∧
    (⟨[(1, 5)], 1, 0⟩ : Bucket Nat Nat).insert 1 6 = (false, ⟨[(1, 5)], 1, 0⟩) := by
  decide

/-- C2 (amended): Bucket::insert rejects without mutating exactly when the
bucket is full — even when the key is present, since fullness is checked
first; when not full it overwrites in place if the key is present, else
appends; in both non-full cases it reports success. -/
theorem bucket_insert_characterization [DecidableEq K] (b : Bucket K V)
    (key : K) (value : V) : b.insert key value = bucketInsertAmended b key value := by
  unfold Bucket.insert bucketInsertAmended Bucket.isFull
  by_cases hfull : b.list.length = b.size
  · simp [hfull]
  · simp only [if_neg hfull, beq_iff_eq, hfull, if_false]
    rw [updateLoop_spec key value b.list]
    unfold Bucket.findEntry
    cases findLoop b.list key <;> simp

/-- C3: the `num_buckets_` counter is never incremented by a split.  With
capacity 1, inserting keys 0 and 1 splits the initial bucket so that two
distinct buckets are referenced, yet `GetNumBuckets()` still returns 1. -/
theorem num_buckets_counter_stale_cex :
    (runInserts 1 [0, 1]).map (fun s => (getNumBuckets s, distinctBuckets s)) =
      some (1, 2) := by decide

theorem replaceFirst_length [DecidableEq K] (key : K) (value : V) :
    ∀ l : List (K × V), (replaceFirst l key value).length = l.length := by
  intro l
  induction l with
  | nil => rfl
  | cons kv rest ih =>
    obtain ⟨k, v⟩ := kv
    by_cases h : k = key <;> simp [replaceFirst, h, ih]

theorem updateLoop_length [DecidableEq K] (key : K) (value : V) :
    ∀ {l l2 : List (K × V)}, updateLoop l key value = some l2 → l2.length = l.length := by
  intro l l2 h
  rw [updateLoop_spec] at h
  cases hf : findLoop l key with
  | none => rw [hf] at h; exact Option.noConfusion h
  | some v0 =>
    rw [hf] at h
    injection h with h
    rw [← h, replaceFirst_length]

theorem removeLoop_length_le [DecidableEq K] (key : K) :
    ∀ l : List (K × V), (removeLoop l key).2.length ≤ l.length := by
  intro l
  induction l with
  | nil => exact Nat.le_refl _
  | cons kv rest ih =>
    obtain ⟨k, v⟩ := kv
    by_cases h : k = key
    · simp [removeLoop, h]
    · simp only [removeLoop, if_neg h, List.length_cons]
      exact Nat.succ_le_succ ih

theorem capOk_bucket_insert [DecidableEq K] {b : Bucket K V} (h : capOk b)
    (key : K) (value : V) : capOk (b.insert key value).2 := by
  unfold Bucket.insert
  by_cases hfull : b.isFull
  · simpa [hfull] using h
  · have hne : b.list.length ≠ b.size := by
      intro heq
      exact hfull (by simp [Bucket.isFull, heq])
    have hlt : b.list.length < b.size := Nat.lt_of_le_of_ne h hne
    simp only [hfull, Bool.false_eq_true, if_false]
    cases hupd : updateLoop b.list key value with
    | some l =>
      simpa [capOk, updateLoop_length key value hupd] using Nat.le_of_lt hlt
    | none => simpa [capOk] using hlt

theorem capOk_bucket_remove [DecidableEq K] {b : Bucket K V} (h : capOk b)
    (key : K) : capOk (b.remove key).2 :=
  Nat.le_trans (removeLoop_length_le key b.list) h

theorem capOk_incrementDepth {b : Bucket K V} (h : capOk b) :
    capOk b.incrementDepth := h

theorem getBucket_mem {s : HTState K V} {id : Nat} {b : Bucket K V}
    (h : getBucket s id = some b) : b ∈ s.store :=
  List.getElem?_mem h

theorem capInv_setStore {s s' : HTState K V} {id : Nat} {b : Bucket K V}
    (hs : capInv s) (hb : capOk b) (h : setStore s id b = some s') : capInv s' := by
  unfold setStore at h
  split at h
  · injection h with h
    intro x hx
    rw [← h] at hx
    rcases List.mem_or_eq_of_mem_set hx with hx | rfl
    · exact hs x hx
    · exact hb
  · exact Option.noConfusion h

theorem capInv_setSlot {s s' : HTState K V} {i id : Nat}
    (hs : capInv s) (h : setSlot s i id = some s') : capInv s' := by
  unfold setSlot at h
  split at h
  · injection h with h; rw [← h]; exact hs
  · exact Option.noConfusion h

theorem capInv_setSlotRaw {s s' : HTState K V} {i : Nat} {v : Option Nat}
    (hs : capInv s) (h : setSlotRaw s i v = some s') : capInv s' := by
  unfold setSlotRaw at h
  split at h
  · injection h with h; rw [← h]; exact hs
  · exact Option.noConfusion h

theorem capInv_distributeLoop [DecidableEq K] {dstId srcId : Nat} :
    ∀ (pairs : List (K × V)) {s s' : HTState K V}, capInv s →
      distributeLoop s dstId srcId pairs = some s' → capInv s' := by
  intro pairs
  induction pairs with
  | nil =>
    intro s s' hs h
    injection h with h
    rw [← h]; exact hs
  | cons kv rest ih =>
    intro s s' hs h
    obtain ⟨k, v⟩ := kv
    rw [distributeLoop] at h
    split at h
    · exact Option.noConfusion h
    · next db hdb =>
      split at h
      · exact Option.noConfusion h
      · next s1 hs1 =>
        have hinv1 : capInv s1 :=
          capInv_setStore hs (capOk_bucket_insert (hs db (getBucket_mem hdb)) k v) hs1
        split at h
        · exact Option.noConfusion h
        · next sb hsb =>
          split at h
          · exact Option.noConfusion h
          · next s2 hs2 =>
            exact ih (capInv_setStore hinv1
              (capOk_bucket_remove (hinv1 sb (getBucket_mem hsb)) k) hs2) h

theorem capInv_redistributeBucket [DecidableEq K] (hash : K → Nat)
    {s s' : HTState K V} {index dstId : Nat} (hs : capInv s)
    (h : redistributeBucket hash s index dstId = some s') : capInv s' := by
  rw [redistributeBucket] at h
  dsimp only at h
  split at h
  · exact Option.noConfusion h
  · split at h
    · exact Option.noConfusion h
    · split at h
      · exact Option.noConfusion h
      · next s1 hs1 =>
        have hinv1 : capInv s1 := capInv_setSlot hs hs1
        split at h
        · exact Option.noConfusion h
        · split at h
          · exact Option.noConfusion h
          · exact capInv_distributeLoop _ hinv1 h

theorem capInv_insert_mutual [DecidableEq K] (hash : K → Nat) :
    ∀ fuel : Nat,
      (∀ (s s' : HTState K V) (key : K) (value : V), capInv s →
        insertF hash fuel s key value = some s' → capInv s') ∧
      (∀ (s s' : HTState K V) (key : K) (value : V) (bucketIndex mask i : Nat),
        capInv s →
        insertGrowLoop hash fuel key value bucketIndex mask i s = some s' →
        capInv s') := by
  intro fuel
  induction fuel with
  | zero =>
    constructor
    · intro s s' key value _ h; exact Option.noConfusion h
    · intro s s' key value bucketIndex mask i _ h; exact Option.noConfusion h
  | succ fuel ih =>
    obtain ⟨ihF, ihL⟩ := ih
    constructor
    · intro s s' key value hs h
      rw [insertF] at h
      dsimp only at h
      split at h
      · exact Option.noConfusion h
      · next id hid =>
        split at h
        · exact Option.noConfusion h
        · next b hb =>
          have hbOk : capOk b := hs b (getBucket_mem hb)
          split at h
          · injection h with h; rw [← h]; exact hs
          · split at h
            · exact capInv_setStore hs (capOk_bucket_insert hbOk key value) h
            · split at h
              · -- directory-growth branch
                refine ihL _ _ _ _ _ _ _ ?_ h
                intro x hx
                rcases List.mem_or_eq_of_mem_set hx with hx | rfl
                · exact hs x hx
                · exact capOk_incrementDepth hbOk
              · -- split-without-growth branch
                split at h
                · exact Option.noConfusion h
                · next s3 hs3 =>
                  refine ihF _ _ _ _ ?_ h
                  refine capInv_redistributeBucket hash ?_ hs3
                  intro x hx
                  rcases List.mem_append.1 hx with hx | hx
                  · rcases List.mem_or_eq_of_mem_set hx with hx | rfl
                    · exact hs x hx
                    · exact capOk_incrementDepth hbOk
                  · rcases List.mem_singleton.1 hx with rfl
                    exact Nat.zero_le _
    · intro s s' key value bucketIndex mask i hs h
      rw [insertGrowLoop] at h
      dsimp only at h
      split at h
      · split at h
        · -- matched slot: split, redistribute, recursive insert, continue
          split at h
          · exact Option.noConfusion h
          · split at h
            · exact Option.noConfusion h
            · next curB hcurB =>
              split at h
              · exact Option.noConfusion h
              · next s2 hred =>
                split at h
                · exact Option.noConfusion h
                · next s3 hins =>
                  refine ihL _ _ _ _ _ _ _ ?_ h
                  refine ihF _ _ _ _ ?_ hins
                  refine capInv_redistributeBucket hash ?_ hred
                  intro x hx
                  rcases List.mem_append.1 hx with hx | hx
                  · exact hs x hx
                  · rcases List.mem_singleton.1 hx with rfl
                    exact Nat.zero_le _
        · -- alias-copy slot
          split at h
          · exact Option.noConfusion h
          · split at h
            · exact Option.noConfusion h
            · next s1 hraw =>
              exact ihL _ _ _ _ _ _ _ (capInv_setSlotRaw hs hraw) h
      · injection h with h; rw [← h]; exact hs

theorem capInv_tableRemove [DecidableEq K] (hash : K → Nat)
    {s s' : HTState K V} {key : K} {r : Bool} (hs : capInv s)
    (h : tableRemove hash s key = some (r, s')) : capInv s' := by
  rw [tableRemove, tableRemoveAt] at h
  dsimp only at h
  split at h
  · exact Option.noConfusion h
  · split at h
    · exact Option.noConfusion h
    · next b hb =>
      split at h
      · next s2 hs2 =>
        injection h with h
        have : s2 = s' := congrArg Prod.snd h
        rw [← this]
        exact capInv_setStore hs (capOk_bucket_remove (hs b (getBucket_mem hb)) key) hs2
      · exact Option.noConfusion h

theorem capInvB_iff (s : HTState K V) : capInvB s = true ↔ capInv s := by
  simp [capInvB, capInv, capOk, List.all_eq_true]

theorem newTable_capInv (cap : Nat) : capInv (newTable cap : HTState K V) := by
  intro b hb
  rcases List.mem_singleton.1 hb with rfl
  exact Nat.zero_le _

/-- C4: in every table state reachable by completed operations, every bucket
holds at most its configured capacity of entries, and a bucket-level insert
into a full bucket is rejected without mutating the bucket (never silently
truncated). -/
theorem reachable_capacity_invariant [DecidableEq K] (hash : K → Nat)
    {s : HTState K V} (h : Reachable hash s) :
    capInvB s = true ∧
    ∀ (b : Bucket K V) (key : K) (value : V), b.isFull = true →
      b.insert key value = (false, b) := by
  constructor
  · rw [capInvB_iff]
    induction h with
    | init cap => exact newTable_capInv cap
    | step _ hstep ih =>
      cases hstep with
      | insert fuel key value hins =>
        exact (capInv_insert_mutual hash fuel).1 _ _ key value ih hins
      | remove key r hrem => exact capInv_tableRemove hash ih hrem
  · intro b key value hfull
    rw [Bucket.insert, if_pos hfull]

/-- C4 witness: the invariant and the rejection behaviour at concrete
inputs. -/
theorem reachable_capacity_invariant_witness :
    capInvB (⟨1, 1, 1, [some 0, some 1],
      [⟨[(0, 0)], 1, 1⟩, ⟨[(1, 1)], 1, 1⟩]⟩ : HTState Nat Nat) = true ∧
    (⟨[(1, 2)], 1, 5⟩ : Bucket Nat Nat).insert 7 7 = (false, ⟨[(1, 2)], 1, 5⟩) := by
  have hrun : runInserts 1 [0, 1] = some
      ⟨1, 1, 1, [some 0, some 1], [⟨[(0, 0)], 1, 1⟩, ⟨[(1, 1)], 1, 1⟩]⟩ := by decide
  have hreach := reachable_of_runInserts hrun
  exact ⟨(reachable_capacity_invariant idHash hreach).1,
    (reachable_capacity_invariant idHash hreach).2 ⟨[(1, 2)], 1, 5⟩ 7 7 (by decide)⟩

/-- C5: a reachable state violating the aliasing invariant.  After inserting
keys 0, 2, 4, 1, 3 into a capacity-1 table, the bucket of local depth 2
addressed by slot 1 is also referenced by slot 7, whose low two bits differ
(the local-depth-below-global split repointed only one directory slot). -/
theorem alias_invariant_violated_cex :
    ∃ s : HTState Nat Nat, runInserts 1 [0, 2, 4, 1, 3] = some s ∧
      Reachable idHash s ∧ aliasInvB s = false := by
  have hrun : runInserts 1 [0, 2, 4, 1, 3] = some
      ⟨3, 1, 1, [some 0, some 1, some 4, some 6, some 5, some 1, some 4, some 1],
        [⟨[(0, 0)], 1, 3⟩, ⟨[(1, 1)], 1, 2⟩, ⟨[(2, 2)], 1, 2⟩, ⟨[(2, 2)], 1, 2⟩,
         ⟨[(2, 2)], 1, 2⟩, ⟨[(4, 4)], 1, 3⟩, ⟨[(3, 3)], 1, 2⟩]⟩ := by decide
  exact ⟨_, hrun, reachable_of_runInserts hrun, by decide⟩

/-- Mid-insert state of the capacity-1 run [0, 2, 3] while inserting key 7:
the overflowing bucket (id 1, at slot 3) has had its depth incremented to 2
and the fresh sibling (id 5) has been created, so `RedistributeBucket` is
about to run with index 3. -/
def T6 : HTState Nat Nat :=
  ⟨2, 1, 1, [some 0, some 1, some 4, some 1],
    [⟨[(0, 0)], 1, 2⟩, ⟨[(3, 3)], 1, 2⟩, ⟨[(2, 2)], 1, 2⟩, ⟨[(2, 2)], 1, 2⟩,
     ⟨[(2, 2)], 1, 2⟩, ⟨[], 1, 2⟩]⟩

/-- C6: when the original index has the newly significant bit set
(3 | 2 = 3), the slot assignment redirects the by-reference source before
its items are read, so no entry moves: here entry (3, 3) has hash bit 2 set
and must move to sibling 5 per the claim, yet redistribution only repoints
slot 3 and leaves every bucket unchanged; consequently key 3, findable
before insert(7), is unfindable afterwards. -/
theorem redistribute_moves_nothing_on_self_alias_cex :
    getSlot T6 3 = some 1 ∧ getBucket T6 1 = some ⟨[(3, 3)], 1, 2⟩ ∧
    getBucket T6 5 = some ⟨[], 1, 2⟩ ∧ idHash 3 &&& 2 ^ (2 - 1) ≠ 0 ∧
    redistributeBucket idHash T6 3 5 =
      some ⟨2, 1, 1, [some 0, some 1, some 4, some 5], T6.store⟩ ∧
    (runInserts 1 [0, 2, 3]).bind (fun s => tableFind idHash s 3 0) =
      some (true, 3) ∧
    (runInserts 1 [0, 2, 3, 7]).bind (fun s => tableFind idHash s 3 0) =
      some (false, 0) := by decide

/-- C8: the directory index used by find, remove and insert is the low
`global_depth` bits of the key's hash: the mask `hash & (2^gd - 1)` equals
`hash mod 2^gd`, and each operation is the corresponding dispatch at that
index. -/
theorem ops_use_low_global_depth_bits (hash : K → Nat) [DecidableEq K]
    (s : HTState K V) (key : K) :
    indexOf hash s key = hash key % 2 ^ s.globalDepth ∧
    (∀ value : V, tableFind hash s key value =
      tableFindAt s (hash key % 2 ^ s.globalDepth) key value) ∧
    tableRemove hash s key = tableRemoveAt s (hash key % 2 ^ s.globalDepth) key ∧
    ∀ (fuel : Nat) (value : V), insertF hash (fuel + 1) s key value =
      insertStep hash fuel s key value (hash key % 2 ^ s.globalDepth) := by
  have h : indexOf hash s key = hash key % 2 ^ s.globalDepth :=
    Nat.and_pow_two_sub_one_eq_mod _ _
  exact ⟨h, fun value => by rw [tableFind, h], by rw [tableRemove, h],
    fun fuel value => by rw [show insertF hash (fuel + 1) s key value =
      insertStep hash fuel s key value (indexOf hash s key) from rfl, h]⟩

/-- C9: `GetLocalDepth` performs an unchecked vector access: on a fresh
table (directory range [0, 1)) the out-of-range index 1 has no defined
result in the model (the C++ code reads past the vector, undefined
behaviour, with no contract-violation signal), while the in-range index 0
returns the referenced bucket's depth. -/
theorem local_depth_out_of_range_unchecked :
    2 ^ getGlobalDepth (newTable 1 : HTState Nat Nat) = 1 ∧
    getLocalDepth (newTable 1 : HTState Nat Nat) 1 = none ∧
    getLocalDepth (newTable 1 : HTState Nat Nat) 0 = some 0 := by decide

/-- C10: when the key is absent from the addressed bucket, `Bucket::Find`
returns false and the caller's out-parameter keeps its previous value, and
the table-level find behaves identically. -/
theorem find_out_param_unchanged_on_miss [DecidableEq K] (b : Bucket K V)
    (key : K) (value : V) (habs : ∀ kv ∈ b.list, kv.1 ≠ key) :
    b.find key value = (false, value) ∧
    ∀ (hash : K → Nat) (s : HTState K V), bucketAt s (indexOf hash s key) = some b →
      tableFind hash s key value = some (false, value) := by
  have hnone : b.findEntry key = none := findLoop_eq_none key b.list habs
  constructor
  · rw [Bucket.find, hnone]
  · intro hash s hb
    simp [tableFind, tableFindAt, hb, Bucket.find, hnone]

/-- C10 witness: the frame property evaluated on a concrete miss. -/
theorem find_out_param_unchanged_on_miss_witness :
    (∀ kv ∈ (⟨[(2, 5)], 4, 0⟩ : Bucket Nat Nat).list, kv.1 ≠ 3) ∧
    (⟨[(2, 5)], 4, 0⟩ : Bucket Nat Nat).find 3 9 = (false, 9) :=
  ⟨by decide,
    (find_out_param_unchanged_on_miss (⟨[(2, 5)], 4, 0⟩ : Bucket Nat Nat) 3 9
      (by decide)).1⟩

theorem one_and_mask {m : Nat} (h : 1 ≤ m) : 1 &&& (2 ^ m - 1) = 1 := by
  rw [Nat.and_pow_two_sub_one_eq_mod]
  exact Nat.mod_eq_of_lt (Nat.one_lt_two_pow (by omega))

theorem pow_and_mask (m : Nat) : 2 ^ m &&& (2 ^ m - 1) = 0 := by
  rw [Nat.and_pow_two_sub_one_eq_mod, Nat.mod_self]

theorem pow_succ_and_mask {m : Nat} (h : 1 ≤ m) :
    (2 ^ m + 1) &&& (2 ^ m - 1) = 1 := by
  rw [Nat.and_pow_two_sub_one_eq_mod, Nat.add_mod_left]
  exact Nat.mod_eq_of_lt (Nat.one_lt_two_pow (by omega))

theorem three_and_pow {m : Nat} (h : 2 ≤ m) : 3 &&& 2 ^ m = 0 := by
  rw [Nat.and_two_pow, Nat.testBit_eq_false_of_lt]
  · simp
  · calc (3 : Nat) < 2 ^ 2 := by decide
      _ ≤ 2 ^ m := Nat.pow_le_pow_right (by decide) h

theorem lor_one_pow {m : Nat} (h : 1 ≤ m) : 1 ||| 2 ^ m = 2 ^ m + 1 := by
  have hb := Nat.mul_add_lt_is_or (Nat.one_lt_two_pow (n := m) (by omega)) 1
  rw [Nat.mul_one] at hb
  rw [Nat.lor_comm]
  exact hb.symm

theorem pow_succ_one_lt {m : Nat} (h : 1 ≤ m) : 2 ^ m + 1 < 2 ^ (m + 1) := by
  rw [Nat.pow_succ, Nat.mul_two]
  exact Nat.add_lt_add_left (Nat.one_lt_two_pow (by omega)) _

theorem two_pow_ne_one {m : Nat} (h : 1 ≤ m) : 2 ^ m ≠ 1 :=
  Nat.ne_of_gt (Nat.one_lt_two_pow (by omega))

theorem two_pow_succ_ne_one (m : Nat) : 2 ^ m + 1 ≠ 1 := by
  have := Nat.two_pow_pos m
  omega

/-- Strand configuration for the non-termination witness: at global depth
`m ≥ 2`, directory slot 1 (the slot `IndexOf` selects for a key of hash 1 at
every depth `≥ 1`) references a full capacity-1 bucket whose single entry
has key 3 — hash 3 agrees with hash 1 on every bit the algorithm will still
examine — and whose local depth equals the global depth. -/
def Strand (m : Nat) (s : HTState Nat Nat) : Prop :=
  2 ≤ m ∧ s.globalDepth = m ∧ s.dir.length = 2 ^ m ∧
  ∃ id v3 : Nat, s.dir[1]? = some (some id) ∧
    s.store[id]? = some ⟨[(3, v3)], 1, m⟩

theorem strand_mutual : ∀ fuel : Nat,
    (∀ (m : Nat) (s : HTState Nat Nat) (v : Nat), Strand m s →
      insertF idHash fuel s 1 v = none) ∧
    (∀ (m : Nat) (s : HTState Nat Nat) (v i : Nat), 2 ≤ m → Strand (m + 1) s →
      (i = 2 ^ m ∨ i = 2 ^ m + 1) →
      insertGrowLoop idHash fuel 1 v 1 (2 ^ m - 1) i s = none) := by
  intro fuel
  induction fuel with
  | zero => exact ⟨fun m s v _ => rfl, fun m s v i _ _ _ => rfl⟩
  | succ fuel ih =>
    obtain ⟨ihF, ihL⟩ := ih
    constructor
    · -- `Insert` on a strand state takes the directory-growth branch and
      -- hands the strand to the copy loop.
      intro m s v hS
      obtain ⟨hm, hgd, hlen, id, v3, hdir1, hstore⟩ := hS
      have hm1 : 1 ≤ m := by omega
      obtain ⟨hid_lt, -⟩ := List.getElem?_eq_some_iff.mp hstore
      have hidx : indexOf idHash s 1 = 1 := by
        rw [indexOf, hgd]
        exact one_and_mask hm1
      have hslot : getSlot s 1 = some id := by
        rw [getSlot, hdir1]
      rw [show insertF idHash (fuel + 1) s 1 v =
            insertStep idHash fuel s 1 v (indexOf idHash s 1) from rfl,
        hidx, insertStep, hslot]
      dsimp only
      rw [show getBucket s id = some ⟨[(3, v3)], 1, m⟩ from hstore]
      dsimp only
      rw [if_neg (by simp [Bucket.findEntry, findLoop]),
        if_neg (by simp [Bucket.isFull]),
        if_pos hgd.symm]
      rw [hgd]
      simp only [Nat.add_sub_cancel]
      refine ihL m _ v (2 ^ m) hm ?_ (Or.inl rfl)
      refine ⟨by omega, rfl, ?_, id, v3, ?_, ?_⟩
      · show ((s.dir ++ List.replicate (2 ^ (m + 1) - s.dir.length)
            none).take (2 ^ (m + 1))).length = 2 ^ (m + 1)
        rw [List.length_take, List.length_append, List.length_replicate, hlen,
          Nat.add_sub_cancel' (Nat.le_of_lt (Nat.pow_lt_pow_succ (by decide))),
          Nat.min_self]
      · show ((s.dir ++ List.replicate (2 ^ (m + 1) - s.dir.length)
            none).take (2 ^ (m + 1)))[1]? = some (some id)
        have htake : 1 < 2 ^ (m + 1) := Nat.one_lt_two_pow (by omega)
        have happ : 1 < s.dir.length := by
          rw [hlen]
          exact Nat.one_lt_two_pow (by omega)
        rw [List.getElem?_take_of_lt htake, List.getElem?_append_left happ, hdir1]
      · show (s.store.set id (Bucket.incrementDepth ⟨[(3, v3)], 1, m⟩))[id]? =
          some ⟨[(3, v3)], 1, m + 1⟩
        rw [List.getElem?_set_self hid_lt]
        rfl
    · -- the copy loop on a strand state: the slot at `2 ^ m` is a plain
      -- alias copy, the slot at `2 ^ m + 1` matches, splits, redistributes
      -- nothing (key 3 keeps the bucket full) and recurses.
      intro m s v i hm hS hi
      obtain ⟨-, hgd, hlen, id, v3, hdir1, hstore⟩ := hS
      have hm1 : 1 ≤ m := by omega
      obtain ⟨hid_lt, -⟩ := List.getElem?_eq_some_iff.mp hstore
      have hbound : 2 ^ m < s.dir.length := by
        rw [hlen]
        exact Nat.lt_trans (by omega) (pow_succ_one_lt hm1)
      have hbound1 : 2 ^ m + 1 < s.dir.length := by
        rw [hlen]
        exact pow_succ_one_lt hm1
      rw [insertGrowLoop]
      rcases hi with rfl | rfl
      · -- alias-copy iteration at i = 2 ^ m
        rw [if_pos hbound, if_neg (by rw [pow_and_mask]; omega)]
        have h0 : 0 < s.dir.length := by
          rw [hlen]; exact Nat.two_pow_pos _
        rw [pow_and_mask]
        rw [List.getElem?_eq_getElem h0]
        dsimp only
        rw [setSlotRaw, if_pos hbound]
        dsimp only
        refine ihL m _ v (2 ^ m + 1) hm ?_ (Or.inr rfl)
        refine ⟨by omega, hgd, ?_, id, v3, ?_, hstore⟩
        · show (s.dir.set (2 ^ m) s.dir[0]).length = 2 ^ (m + 1)
          rw [List.length_set, hlen]
        · show (s.dir.set (2 ^ m) s.dir[0])[1]? = some (some id)
          rw [List.getElem?_set_ne (two_pow_ne_one hm1), hdir1]
      · -- matched iteration at i = 2 ^ m + 1
        rw [if_pos hbound1, if_pos (pow_succ_and_mask hm1)]
        have hslot : getSlot s 1 = some id := by rw [getSlot, hdir1]
        rw [hslot]
        dsimp only
        rw [show getBucket s id = some ⟨[(3, v3)], 1, m + 1⟩ from hstore]
        dsimp only
        have happid : (s.store ++ [(⟨[], s.bucketSize, m + 1⟩ : Bucket Nat Nat)])[id]? =
            some ⟨[(3, v3)], 1, m + 1⟩ := by
          rw [List.getElem?_append_left hid_lt, hstore]
        have hred : redistributeBucket idHash
            { s with store := s.store ++ [⟨[], s.bucketSize, m + 1⟩] } 1
              s.store.length =
            some { s with
              dir := s.dir.set (2 ^ m + 1) (some s.store.length),
              store := s.store ++ [⟨[], s.bucketSize, m + 1⟩] } := by
          rw [redistributeBucket]
          rw [show getSlot { s with store := s.store ++
              [(⟨[], s.bucketSize, m + 1⟩ : Bucket Nat Nat)] } 1 = some id from by
            rw [getSlot]; dsimp only; rw [hdir1]]
          dsimp only
          rw [show getBucket { s with store := s.store ++
              [(⟨[], s.bucketSize, m + 1⟩ : Bucket Nat Nat)] } id =
              some ⟨[(3, v3)], 1, m + 1⟩ from happid]
          dsimp only
          rw [Nat.add_sub_cancel, lor_one_pow hm1, setSlot]
          dsimp only
          rw [if_pos hbound1]
          dsimp only
          rw [show getSlot { s with
              dir := s.dir.set (2 ^ m + 1) (some s.store.length),
              store := s.store ++ [(⟨[], s.bucketSize, m + 1⟩ : Bucket Nat Nat)] } 1 =
              some id from by
            rw [getSlot]; dsimp only
            rw [List.getElem?_set_ne (two_pow_succ_ne_one m), hdir1]]
          dsimp only
          rw [show getBucket { s with
              dir := s.dir.set (2 ^ m + 1) (some s.store.length),
              store := s.store ++ [(⟨[], s.bucketSize, m + 1⟩ : Bucket Nat Nat)] } id =
              some ⟨[(3, v3)], 1, m + 1⟩ from happid]
          dsimp only
          rw [show List.filter
              (fun kv => decide (idHash kv.1 &&& 2 ^ m ≠ 0)) [(3, v3)] = [] from by
            simp [idHash, List.filter, three_and_pow hm]]
          rfl
        rw [hred]
        have hS2 : Strand (m + 1)
            { s with dir := s.dir.set (2 ^ m + 1) (some s.store.length),
                     store := s.store ++ [⟨[], s.bucketSize, m + 1⟩] } := by
          refine ⟨by omega, hgd, ?_, id, v3, ?_, happid⟩
          · show (s.dir.set (2 ^ m + 1) (some s.store.length)).length = 2 ^ (m + 1)
            rw [List.length_set, hlen]
          · show (s.dir.set (2 ^ m + 1) (some s.store.length))[1]? = some (some id)
            rw [List.getElem?_set_ne (two_pow_succ_ne_one m), hdir1]
        simp only [ihF (m + 1) _ v hS2]

/-- The state reached by inserting keys 0, 2, 3, 7 into a capacity-1 table:
key 3 is stranded in the bucket at slot 1 (its own slot 3 was repointed to
an empty sibling by the self-aliasing redistribution), so slot 1 holds a
full bucket whose entry hash 3 agrees with hash 1 on every bit from bit 2
upward. -/
def S0 : HTState Nat Nat :=
  ⟨2, 1, 1, [some 0, some 1, some 4, some 5],
    [⟨[(0, 0)], 1, 2⟩, ⟨[(3, 3)], 1, 2⟩, ⟨[(2, 2)], 1, 2⟩, ⟨[(2, 2)], 1, 2⟩,
     ⟨[(2, 2)], 1, 2⟩, ⟨[(7, 7)], 1, 2⟩]⟩

/-- C7: the split-and-retry loop can recurse forever even though the table
satisfies the structural invariants and no resident key fully collides with
the inserted key: after the reachable run [0, 2, 3, 7] (capacity 1), the
insert of key 1 returns no result for any amount of fuel — each round grows
the directory, splits the bucket at slot 1, moves nothing (the stranded
entry of hash 3 has every examined bit equal to hash 1) and retries. -/
theorem insert_diverges_after_strand_cex :
    runInserts 1 [0, 2, 3, 7] = some S0 ∧ structInvB S0 = true ∧
    fullColliders idHash S0 (idHash 1) = 0 ∧
    ∀ fuel v : Nat, insertF idHash fuel S0 1 v = none := by
  refine ⟨by decide, by decide, by decide, fun fuel v => ?_⟩
  exact (strand_mutual fuel).1 2 S0 v ⟨Nat.le_refl 2, rfl, rfl, 1, 3, rfl, rfl⟩

end ExtHash
